import Mathlib

/-!
Verification of the fixed-block data-integrity checksum engine of the
yuuuu202/ceshi repository.

The repository ships the test surface (`ceshi/test_integrity_suite.c`,
`test1.1/test_aes_sm3_integrity.c`, `ceshi/generate_test_data.c`); the engine
itself (`aes_sm3_integrity.c`) is declared `extern` by the tests but is not part
of the source tree.  Definitions below carry a doc comment naming their origin:
either a concrete place in the test sources, or `Modelled from the spec:` for
the parts of the engine that exist only as declarations.

All machine integers are `Nat` with explicit reduction `% 4294967296` (2^32)
where 32-bit overflow matters; byte values are `Nat`s below 256.  A 4096-byte
block is a function `Nat → Nat` giving the byte at each index; digests are
`List Nat` of byte values.
-/

/-- 2^32, the modulus of all 32-bit arithmetic in the engine. -/
def M32 : Nat := 4294967296

/-- Modelled from the spec: 32-bit left rotation used by the GB/T 32905-2016
compression function (`sm3_compress_hw` lives in the absent
`aes_sm3_integrity.c`; spec §4.1 specifies the standardized round function
with "bitwise rotations").  Inputs are assumed reduced below 2^32. -/
def rotl32 (x n : Nat) : Nat :=
  ((x <<< n) ||| (x >>> (32 - n))) % M32

/-- Modelled from the spec: the SM3 permutation P0 of GB/T 32905-2016. -/
def sm3P0 (x : Nat) : Nat := x ^^^ rotl32 x 9 ^^^ rotl32 x 17

/-- Modelled from the spec: the SM3 permutation P1 of GB/T 32905-2016. -/
def sm3P1 (x : Nat) : Nat := x ^^^ rotl32 x 15 ^^^ rotl32 x 23

/-- Modelled from the spec: the SM3 boolean function FF_j of GB/T 32905-2016. -/
def sm3FF (j x y z : Nat) : Nat :=
  if j < 16 then x ^^^ y ^^^ z else (x &&& y) ||| (x &&& z) ||| (y &&& z)

/-- Modelled from the spec: the SM3 boolean function GG_j of GB/T 32905-2016. -/
def sm3GG (j x y z : Nat) : Nat :=
  if j < 16 then x ^^^ y ^^^ z else (x &&& y) ||| ((x ^^^ 4294967295) &&& z)

/-- Modelled from the spec: the SM3 round constant T_j of GB/T 32905-2016. -/
def sm3T (j : Nat) : Nat := if j < 16 then 0x79cc4519 else 0x7a879d8a

/-- Modelled from the spec: SM3 message expansion of GB/T 32905-2016.  From
the sixteen 32-bit words of a 64-byte message block, the 68-word schedule
W is produced; for 16 ≤ j ≤ 67,
W_j = P1(W_{j-16} ^ W_{j-9} ^ (W_{j-3} <<< 15)) ^ (W_{j-13} <<< 7) ^ W_{j-6}. -/
def sm3W (block : List Nat) : List Nat :=
  (List.range 52).foldl (fun w k =>
    w ++ [sm3P1 (w.getD k 0 ^^^ w.getD (k + 7) 0 ^^^ rotl32 (w.getD (k + 13) 0) 15)
          ^^^ rotl32 (w.getD (k + 3) 0) 7 ^^^ w.getD (k + 10) 0]) block

/-- Modelled from the spec: one SM3 compression round of GB/T 32905-2016,
acting on the eight-word working state [A,B,C,D,E,F,G,H] with the expanded
schedule `w` at round index `j`. -/
def sm3Round (w : List Nat) (s : List Nat) (j : Nat) : List Nat :=
  match s with
  | [a, b, c, d, e, f, g, h] =>
    let ss1 := rotl32 ((rotl32 a 12 + e + rotl32 (sm3T j) (j % 32)) % M32) 7
    let ss2 := ss1 ^^^ rotl32 a 12
    let wj := w.getD j 0
    let wj' := wj ^^^ w.getD (j + 4) 0
    let tt1 := (sm3FF j a b c + d + ss2 + wj') % M32
    let tt2 := (sm3GG j e f g + h + ss1 + wj) % M32
    [tt1, a, rotl32 b 9, c, sm3P0 tt2, e, rotl32 f 19, g]
  | _ => s

/-- Modelled from the spec: the SM3 compression function `sm3_compress_hw`
declared `extern` by both test files; spec §4.1 ("Hash Core") specifies the
standardized GB/T 32905-2016 compression function over a 32-bit×8 state and a
64-byte (sixteen-word) block: message expansion, 64 rounds, and the final
word-wise XOR of the new working state into the incoming state.  This is the
tight-loop execution strategy. -/
def sm3_compress_hw (state block : List Nat) : List Nat :=
  let w := sm3W block
  let v := (List.range 64).foldl (sm3Round w) state
  List.zipWith (fun x y => x ^^^ y) v state

/-- The SM3 standard initialization vector, as in
`ceshi/test_integrity_suite.c` lines 150-153 and
`test1.1/test_aes_sm3_integrity.c` lines 67-70. -/
def SM3_IV : List Nat :=
  [0x7380166f, 0x4914b2b9, 0x172442d7, 0xda8a0600,
   0xa96f30bc, 0x163138aa, 0xe38dee4d, 0xb0fb0e4e]

/-- Big-endian serialization of the eight-word SM3 state into bytes, as in
`test1.1/test_aes_sm3_integrity.c` lines 891-896: byte 4i+k of the output is
`(state[i] >> (24 - 8k)) & 0xFF`. -/
def stateToBytesBE (st : List Nat) : List Nat :=
  st.foldr (fun w acc =>
    ((w >>> 24) &&& 255) :: ((w >>> 16) &&& 255) :: ((w >>> 8) &&& 255) :: (w &&& 255) :: acc) []

/-- The padded single-block message for the 3-byte input "abc", built exactly
as in `test1.1/test_aes_sm3_integrity.c` lines 869-874: bytes 'a' 'b' 'c',
then 0x80, zeros, and the 64-bit big-endian bit length 24 (0x18) in byte 63. -/
def abc_padded : Nat → Nat := fun n =>
  if n = 0 then 0x61 else if n = 1 then 0x62 else if n = 2 then 0x63
  else if n = 3 then 0x80 else if n = 63 then 0x18 else 0

/-- The sixteen big-endian words of the padded "abc" block, built as in
`test1.1/test_aes_sm3_integrity.c` lines 880-886. -/
def abc_block : List Nat :=
  (List.range 16).map (fun i =>
    (abc_padded (4 * i) <<< 24) ||| (abc_padded (4 * i + 1) <<< 16) |||
    (abc_padded (4 * i + 2) <<< 8) ||| abc_padded (4 * i + 3))

/-- The GB/T 32905-2016 reference digest for "abc", from
`test1.1/test_aes_sm3_integrity.c` lines 858-863. -/
def abc_expected : List Nat :=
  [0x66, 0xc7, 0xf0, 0xf4, 0x62, 0xee, 0xed, 0xd9,
   0xd1, 0xf2, 0xd4, 0x6b, 0xdc, 0x10, 0xe4, 0xe2,
   0x41, 0x67, 0xc4, 0x87, 0x5c, 0xf2, 0xf7, 0xa2,
   0x29, 0x7d, 0xa0, 0x2b, 0x8f, 0x4b, 0xa8, 0xe0]

/-- Modelled from the spec: the fully unrolled execution strategy of the Hash
Core (`sm3_compress_hw_inline_full`, declared `extern` in
`ceshi/test_integrity_suite.c` line 47 but absent from src).  Spec §4.1 and §9
treat the strategies as one compression function differing only in scheduling;
here the 64 rounds are processed two per loop step. -/
def sm3_compress_hw_inline_full (state block : List Nat) : List Nat :=
  let w := sm3W block
  let v := (List.range 32).foldl
    (fun s k => sm3Round w (sm3Round w s (2 * k)) (2 * k + 1)) state
  List.zipWith (fun x y => x ^^^ y) v state

/-- Modelled from the spec: a third Hash Core execution strategy processing
four rounds per loop step (spec §4.1 permits "multiple internal execution
strategies (tight loop, fully unrolled, hardware-accelerated)"). -/
def sm3_compress_quad (state block : List Nat) : List Nat :=
  let w := sm3W block
  let v := (List.range 16).foldl
    (fun s k =>
      sm3Round w (sm3Round w (sm3Round w (sm3Round w s (4 * k)) (4 * k + 1)) (4 * k + 2)) (4 * k + 3))
    state
  List.zipWith (fun x y => x ^^^ y) v state

/-- The XOR-Fold Compressor, translated from the reference loop in
`test1.1/test_aes_sm3_integrity.c` lines 939-944 (and spec §4.2): for each of
the 64 lanes `i`, XOR the 64 bytes `B[i*64 + j]`, `j < 64`, into output byte
`i`. -/
def xor_fold (B : Nat → Nat) : List Nat :=
  (List.range 64).map (fun i =>
    (List.range 64).foldl (fun acc j => acc ^^^ B (i * 64 + j)) 0)

/-- Modelled from the spec: the word-parallel execution strategy of the
XOR-Fold Compressor (spec §4.2: "cheap (single pass, word-parallel XOR)");
each lane is reduced eight bytes per loop step. -/
def xor_fold_unrolled (B : Nat → Nat) : List Nat :=
  (List.range 64).map (fun i =>
    (List.range 8).foldl (fun acc j =>
      acc ^^^ B (i * 64 + 8 * j) ^^^ B (i * 64 + 8 * j + 1) ^^^ B (i * 64 + 8 * j + 2)
          ^^^ B (i * 64 + 8 * j + 3) ^^^ B (i * 64 + 8 * j + 4) ^^^ B (i * 64 + 8 * j + 5)
          ^^^ B (i * 64 + 8 * j + 6) ^^^ B (i * 64 + 8 * j + 7)) 0)

/-- Modelled from the spec: big-endian packing of the 64-byte fold output into
the sixteen 32-bit words of one SM3 message block (spec §4.3: the 64-byte
intermediate is fed to Hash Core; the packing mirrors the big-endian word
construction of `test1.1/test_aes_sm3_integrity.c` lines 880-886). -/
def bytesToWordsBE (bytes : List Nat) : List Nat :=
  (List.range 16).map (fun i =>
    (bytes.getD (4 * i) 0 <<< 24) ||| (bytes.getD (4 * i + 1) 0 <<< 16) |||
    (bytes.getD (4 * i + 2) 0 <<< 8) ||| bytes.getD (4 * i + 3) 0)

/-- Modelled from the spec: the SM3 padding block for a 64-byte message
(spec §4.3: "append a single 1 bit, zero-pad, append a 64-bit big-endian
bit-length field").  A 64-byte message fills one block exactly, so the padding
forms a second block: 0x80, zeros, and the bit length 512 = 0x200. -/
def sm3PadBlock : List Nat := 0x80000000 :: (List.replicate 14 0 ++ [0x200])

/-- Modelled from the spec: the final SM3 state of the Single-Block Engine
pipeline (spec §4.3): fold the block, pack the 64-byte intermediate, compress
it and the padding block from the standard initialization vector. -/
def sm3FoldState (B : Nat → Nat) : List Nat :=
  sm3_compress_hw (sm3_compress_hw SM3_IV (bytesToWordsBE (xor_fold B))) sm3PadBlock

/-- Modelled from the spec: the Single-Block Engine `aes_sm3_integrity_256bit`
(declared `extern` in both test files, absent from src; spec §4.3): XOR-fold,
pad, hash from the standard initialization vector, serialize big-endian. -/
def aes_sm3_integrity_256bit (B : Nat → Nat) : List Nat :=
  stateToBytesBE (sm3FoldState B)

/-- Modelled from the spec: the 128-bit view `aes_sm3_integrity_128bit`
(spec §4.3: "a 128-bit Digest defined as exactly the first 16 bytes of the
256-bit Digest"): the first four state words are serialized. -/
def aes_sm3_integrity_128bit (B : Nat → Nat) : List Nat :=
  stateToBytesBE ((sm3FoldState B).take 4)

/-- Modelled from the spec: a Single-Block Engine pipeline parametrized by the
fold and compression strategies (spec §6 and §9 treat the five "optimized"
variants as one engine with a strategy selector). -/
def digestWith (fold : (Nat → Nat) → List Nat)
    (compress : List Nat → List Nat → List Nat) (B : Nat → Nat) : List Nat :=
  stateToBytesBE (compress (compress SM3_IV (bytesToWordsBE (fold B))) sm3PadBlock)

/-- Modelled from the spec: the v3.0 Extreme variant — unrolled fold,
tight-loop compression. -/
def aes_sm3_integrity_256bit_extreme : (Nat → Nat) → List Nat :=
  digestWith xor_fold_unrolled sm3_compress_hw

/-- Modelled from the spec: the v3.1 Ultra variant — tight-loop fold,
two-round-per-step compression. -/
def aes_sm3_integrity_256bit_ultra : (Nat → Nat) → List Nat :=
  digestWith xor_fold sm3_compress_hw_inline_full

/-- Modelled from the spec: the v4.0 Mega variant — unrolled fold,
two-round-per-step compression. -/
def aes_sm3_integrity_256bit_mega : (Nat → Nat) → List Nat :=
  digestWith xor_fold_unrolled sm3_compress_hw_inline_full

/-- Modelled from the spec: the v5.0 Super variant — tight-loop fold,
four-round-per-step compression. -/
def aes_sm3_integrity_256bit_super : (Nat → Nat) → List Nat :=
  digestWith xor_fold sm3_compress_quad

/-- Modelled from the spec: the v6.0 Hyper variant — unrolled fold,
four-round-per-step compression. -/
def aes_sm3_integrity_256bit_hyper : (Nat → Nat) → List Nat :=
  digestWith xor_fold_unrolled sm3_compress_quad

/-- Modelled from the spec: the Batch Engine `aes_sm3_integrity_batch`
(spec §4.4): the Single-Block Engine applied to each block of the ordered
list in order, one output slot per block. -/
def aes_sm3_integrity_batch : List (Nat → Nat) → List (List Nat)
  | [] => []
  | b :: rest => aes_sm3_integrity_256bit b :: aes_sm3_integrity_batch rest

/-- Modelled from the spec: the index range owned by worker `t` of the
Parallel Engine (spec §4.5: "divide the M indices into T disjoint, contiguous
(or otherwise deterministic) ranges, one per worker"): worker `t` owns the
indices `i` with `t * M / T ≤ i < (t + 1) * M / T`. -/
def workerOwns (M T t i : Nat) : Prop :=
  t * M / T ≤ i ∧ i < (t + 1) * M / T

instance (M T t i : Nat) : Decidable (workerOwns M T t i) :=
  inferInstanceAs (Decidable (_ ∧ _))

/-- Modelled from the spec: one worker of the Parallel Engine (spec §4.5):
worker `t` computes Single-Block digests for exactly its own index range and
writes only into its own output slots, leaving every other slot of the output
state untouched. -/
def workerWrite (A : Nat → Nat → Nat) (M T t : Nat)
    (out : Nat → Option (List Nat)) : Nat → Option (List Nat) :=
  fun i => if workerOwns M T t i then some (aes_sm3_integrity_256bit (A i)) else out i

/-- Modelled from the spec: the Parallel Engine `aes_sm3_parallel` with
256-bit output (spec §4.5), as the final output state after the workers
finish in the order given by `sched` (a list of worker indices; any order,
repeats allowed), starting from an unwritten output array.  Spec §5: workers
do not communicate and their writes are disjoint by construction. -/
def aes_sm3_parallel (A : Nat → Nat → Nat) (M T : Nat) (sched : List Nat) :
    Nat → Option (List Nat) :=
  sched.foldl (fun out t => workerWrite A M T t out) (fun _ => none)

/-- Per-byte popcount loop of the test suites' `hamming_distance`
(`ceshi/test_integrity_suite.c` lines 114-118): while `x` is nonzero, add its
low bit and shift right; `fuel` bounds the iteration and is always sufficient
since `x / 2 < x`. -/
def bitsumAux : Nat → Nat → Nat
  | 0, _ => 0
  | fuel + 1, x => if x = 0 then 0 else x % 2 + bitsumAux fuel (x / 2)

/-- The number of set bits of `x`, computed by the while loop of the test
suites' `hamming_distance` (`ceshi/test_integrity_suite.c` lines 111-121). -/
def bitsum (x : Nat) : Nat := bitsumAux x x

/-- The test suites' `hamming_distance`, translated from
`ceshi/test_integrity_suite.c` lines 111-121 (identical in
`test1.1/test_aes_sm3_integrity.c` lines 131-141): sum over the first `len`
bytes of the popcount of `a[i] XOR b[i]`. -/
def hamming_distance (a b : Nat → Nat) (len : Nat) : Nat :=
  (List.range len).foldl (fun d i => d + bitsum (a i ^^^ b i)) 0

/-- The all-zero 4096-byte block (`test_data_zeros.bin`;
`ceshi/test_integrity_suite.c` lines 237-238). -/
def zeroBlock : Nat → Nat := fun _ => 0

/-- The all-0xFF 4096-byte block (`test_data_ones.bin`;
`ceshi/test_integrity_suite.c` lines 249-250). -/
def onesBlock : Nat → Nat := fun _ => 255

/-- The block that is zero except for byte 0 = 0x01
(`test1.1/test_aes_sm3_integrity.c` lines 986-987). -/
def e0Block : Nat → Nat := fun n => if n = 0 then 1 else 0

set_option maxRecDepth 1000000
set_option maxHeartbeats 2000000

/-! ## Helper lemmas -/

/-- The two non-tight-loop Hash Core strategies compute the same function as
the tight loop: unrolling the 64 rounds two per step is a pure rescheduling. -/
theorem sm3_compress_hw_eq_inline (s b : List Nat) :
    sm3_compress_hw_inline_full s b = sm3_compress_hw s b := rfl

/-- Unrolling the 64 rounds four per step also computes the tight loop. -/
theorem sm3_compress_hw_eq_quad (s b : List Nat) :
    sm3_compress_quad s b = sm3_compress_hw s b := rfl

/-- The word-parallel fold strategy computes the reference lane-wise fold. -/
theorem xor_fold_unrolled_eq (B : Nat → Nat) :
    xor_fold_unrolled B = xor_fold B := rfl

/-- The Batch Engine is the Single-Block Engine mapped over the list. -/
theorem batch_eq_map : ∀ L : List (Nat → Nat),
    aes_sm3_integrity_batch L = L.map aes_sm3_integrity_256bit
  | [] => rfl
  | b :: rest => by
      rw [aes_sm3_integrity_batch, batch_eq_map rest, List.map_cons]

/-- Big-endian serialization commutes with truncating the state to its first
four words: the first 16 output bytes come from the first 4 words. -/
theorem stateToBytesBE_take (st : List Nat) :
    stateToBytesBE (st.take 4) = (stateToBytesBE st).take 16 := by
  match st with
  | [] => rfl
  | [_] => rfl
  | [_, _] => rfl
  | [_, _, _] => rfl
  | _ :: _ :: _ :: _ :: _ => rfl

/-- Running any list of workers over any output state writes slot `i` with the
Single-Block digest of block `i` exactly when some executed worker owns `i`,
and leaves the slot untouched otherwise — every worker writes only into its
own range and all owners write the same value, so the state after a schedule
does not depend on the order of the workers in it. -/
theorem parallel_foldl (A : Nat → Nat → Nat) (M T : Nat) :
    ∀ (sched : List Nat) (init : Nat → Option (List Nat)) (i : Nat),
      sched.foldl (fun out t => workerWrite A M T t out) init i =
        if ∃ t ∈ sched, workerOwns M T t i
        then some (aes_sm3_integrity_256bit (A i)) else init i := by
  intro sched
  induction sched with
  | nil => intro init i; simp
  | cons t rest ih =>
    intro init i
    rw [List.foldl_cons, ih]
    by_cases h1 : ∃ u ∈ rest, workerOwns M T u i
    · have h2 : ∃ u ∈ t :: rest, workerOwns M T u i := by
        obtain ⟨u, hu, hw⟩ := h1
        exact ⟨u, List.mem_cons_of_mem _ hu, hw⟩
      rw [if_pos h1, if_pos h2]
    · by_cases h0 : workerOwns M T t i
      · have h2 : ∃ u ∈ t :: rest, workerOwns M T u i :=
          ⟨t, List.mem_cons_self t rest, h0⟩
        rw [if_neg h1, if_pos h2]
        show workerWrite A M T t init i = _
        rw [workerWrite, if_pos h0]
      · have h2 : ¬∃ u ∈ t :: rest, workerOwns M T u i := by
          rintro ⟨u, hu, hw⟩
          rcases List.mem_cons.mp hu with rfl | hm
          · exact h0 hw
          · exact h1 ⟨u, hm, hw⟩
        rw [if_neg h1, if_neg h2]
        show workerWrite A M T t init i = init i
        rw [workerWrite, if_neg h0]

/-- A sequence of naturals that starts at or below `i` and ends above `i`
passes `i` in some step. -/
theorem exists_step_interval (f : Nat → Nat) :
    ∀ n i, f 0 ≤ i → i < f n → ∃ t, t < n ∧ f t ≤ i ∧ i < f (t + 1) := by
  intro n
  induction n with
  | zero => intro i h0 hn; omega
  | succ n ih =>
    intro i h0 hn
    by_cases hc : i < f n
    · obtain ⟨t, ht, h⟩ := ih i h0 hc
      exact ⟨t, Nat.lt_succ_of_lt ht, h⟩
    · exact ⟨n, Nat.lt_succ_self n, Nat.le_of_not_lt hc, hn⟩

/-- Every output index below `M` is owned by some worker below `T`: the
contiguous ranges `[t*M/T, (t+1)*M/T)` cover all of `[0, M)`. -/
theorem exists_owner (M T i : Nat) (hT : 0 < T) (hi : i < M) :
    ∃ t, t < T ∧ workerOwns M T t i := by
  have h0 : 0 * M / T ≤ i := by simp
  have hn : i < T * M / T := by
    rw [Nat.mul_div_cancel_left M hT]; exact hi
  obtain ⟨t, ht, h1, h2⟩ := exists_step_interval (fun k => k * M / T) T i h0 hn
  exact ⟨t, ht, h1, h2⟩

/-- The fuel argument of `bitsumAux` is irrelevant as long as it dominates the
argument, because the popcount loop halves its argument each iteration. -/
theorem bitsumAux_stable : ∀ f1 f2 x, x ≤ f1 → x ≤ f2 →
    bitsumAux f1 x = bitsumAux f2 x := by
  intro f1
  induction f1 with
  | zero =>
    intro f2 x h1 h2
    have hx : x = 0 := Nat.le_zero.mp h1
    subst hx
    cases f2 <;> simp [bitsumAux]
  | succ f ih =>
    intro f2 x h1 h2
    cases f2 with
    | zero =>
      have hx : x = 0 := Nat.le_zero.mp h2
      subst hx
      simp [bitsumAux]
    | succ g =>
      by_cases hx : x = 0
      · subst hx; simp [bitsumAux]
      · have hlt : x / 2 < x := Nat.div_lt_self (Nat.pos_of_ne_zero hx) Nat.one_lt_two
        simp only [bitsumAux, if_neg hx]
        have := ih g (x / 2) (by omega) (by omega)
        omega

/-- The recurrence satisfied by the popcount loop: `bitsum` adds the low bit
and recurses on the right shift until the argument is zero. -/
theorem bitsum_rec (x : Nat) :
    bitsum x = if x = 0 then 0 else x % 2 + bitsum (x / 2) := by
  unfold bitsum
  cases x with
  | zero => simp [bitsumAux]
  | succ m =>
    have hlt : (m + 1) / 2 < m + 1 := Nat.div_lt_self (Nat.succ_pos m) Nat.one_lt_two
    simp only [bitsumAux, Nat.succ_ne_zero, if_false]
    have := bitsumAux_stable m ((m + 1) / 2) ((m + 1) / 2) (by omega) (by omega)
    omega

/-- `bitsum x` counts the set bits of `x`: for `x < 2^n` it is the number of
indices `k < n` at which `x.testBit k` holds. -/
theorem bitsum_eq_sum : ∀ n x, x < 2 ^ n →
    bitsum x = ∑ k ∈ Finset.range n, (if x.testBit k then 1 else 0) := by
  intro n
  induction n with
  | zero =>
    intro x hx
    have hx0 : x = 0 := by omega
    subst hx0
    simp [bitsum, bitsumAux]
  | succ n ih =>
    intro x hx
    rw [bitsum_rec]
    by_cases hx0 : x = 0
    · subst hx0; simp
    · rw [if_neg hx0]
      have h2 : x / 2 < 2 ^ n := by
        rw [pow_succ] at hx
        exact Nat.div_lt_of_lt_mul (by omega)
      rw [ih (x / 2) h2, Finset.sum_range_succ']
      have hb : ∀ k, x.testBit (k + 1) = (x / 2).testBit k := fun k =>
        Nat.testBit_succ x k
      have h0 : (if x.testBit 0 then (1 : Nat) else 0) = x % 2 := by
        rcases Nat.mod_two_eq_zero_or_one x with h | h <;>
          simp [Nat.testBit_zero, h]
      have hsum : (∑ k ∈ Finset.range n, if x.testBit (k + 1) then (1 : Nat) else 0) =
          ∑ k ∈ Finset.range n, if (x / 2).testBit k then (1 : Nat) else 0 :=
        Finset.sum_congr rfl (fun k _ => by rw [hb k])
      rw [hsum]
      omega

/-- The popcount loop returns zero exactly on the zero byte. -/
theorem bitsum_eq_zero (x : Nat) : bitsum x = 0 ↔ x = 0 := by
  induction x using Nat.strong_induction_on with
  | _ x ih =>
    rw [bitsum_rec]
    by_cases hx : x = 0
    · simp [hx]
    · rw [if_neg hx]
      simp only [hx, iff_false]
      intro hcontra
      have h1 : x % 2 = 0 := by omega
      have h2 : bitsum (x / 2) = 0 := by omega
      have hlt : x / 2 < x := Nat.div_lt_self (Nat.pos_of_ne_zero hx) Nat.one_lt_two
      have h3 : x / 2 = 0 := (ih (x / 2) hlt).mp h2
      omega

/-- `hamming_distance` as a `Finset` sum of per-byte popcounts. -/
theorem hamming_eq_sum (a b : Nat → Nat) : ∀ len,
    hamming_distance a b len = ∑ i ∈ Finset.range len, bitsum (a i ^^^ b i) := by
  intro len
  induction len with
  | zero => rfl
  | succ n ih =>
    show (List.range (n + 1)).foldl (fun d i => d + bitsum (a i ^^^ b i)) 0 = _
    rw [List.range_succ, List.foldl_append, List.foldl_cons, List.foldl_nil,
      Finset.sum_range_succ, ← ih]
    rfl

/-! ## Claim theorems -/

/-- C1: for every block array `A` of `M` blocks and every worker count
`T ≥ 1`, the Parallel Engine with 256-bit output fills slot `i < M` with the
Single-Block 256-bit digest of block `i`, for any order in which the workers
finish (any schedule executing every worker); consequently the output array is
identical for any two worker counts and schedules. -/
theorem claim_parallel_equivalence (A : Nat → Nat → Nat) (M T : Nat)
    (sched : List Nat) (hT : 1 ≤ T) (hall : ∀ t, t < T → t ∈ sched)
    (i : Nat) (hi : i < M) :
    aes_sm3_parallel A M T sched i = some (aes_sm3_integrity_256bit (A i)) ∧
    ∀ T2 sched2, 1 ≤ T2 → (∀ t, t < T2 → t ∈ sched2) →
      aes_sm3_parallel A M T sched i = aes_sm3_parallel A M T2 sched2 i := by
  have key : ∀ T' sched', 1 ≤ T' → (∀ t, t < T' → t ∈ sched') →
      aes_sm3_parallel A M T' sched' i = some (aes_sm3_integrity_256bit (A i)) := by
    intro T' sched' hT' hall'
    unfold aes_sm3_parallel
    rw [parallel_foldl]
    obtain ⟨t, ht, hw⟩ := exists_owner M T' i hT' hi
    rw [if_pos ⟨t, hall' t ht, hw⟩]
  refine ⟨key T sched hT hall, ?_⟩
  intro T2 sched2 hT2 hall2
  rw [key T sched hT hall, key T2 sched2 hT2 hall2]

/-- Witness for C1: one block, one worker, schedule `[0]`. -/
theorem claim_parallel_equivalence_witness :
    (1 ≤ 1 ∧ (∀ t, t < 1 → t ∈ ([0] : List Nat)) ∧ 0 < 1) ∧
    (aes_sm3_parallel (fun _ _ => 0) 1 1 [0] 0 =
        some (aes_sm3_integrity_256bit (fun _ => 0)) ∧
      ∀ T2 sched2, 1 ≤ T2 → (∀ t, t < T2 → t ∈ sched2) →
        aes_sm3_parallel (fun _ _ => 0) 1 1 [0] 0 =
          aes_sm3_parallel (fun _ _ => 0) 1 T2 sched2 0) :=
  ⟨⟨by decide, by decide, by decide⟩,
    claim_parallel_equivalence (fun _ _ => 0) 1 1 [0] (by decide) (by decide) 0 (by decide)⟩

/-- C2: the all-zero and all-0xFF 4096-byte blocks fold to the identical
64-byte intermediate, and therefore their whole-pipeline 256-bit digests are
equal. -/
theorem claim_degenerate_digests_equal :
    xor_fold zeroBlock = xor_fold onesBlock ∧
    aes_sm3_integrity_256bit zeroBlock = aes_sm3_integrity_256bit onesBlock := by
  have h : xor_fold zeroBlock = xor_fold onesBlock := by decide
  refine ⟨h, ?_⟩
  unfold aes_sm3_integrity_256bit sm3FoldState
  rw [h]

/-- C3: for every 4096-byte block, the extreme, ultra, mega, super, and hyper
single-block strategies return digests byte-identical to
`aes_sm3_integrity_256bit` (and hence to each other). -/
theorem claim_strategy_equivalence (B : Nat → Nat) :
    aes_sm3_integrity_256bit_extreme B = aes_sm3_integrity_256bit B ∧
    aes_sm3_integrity_256bit_ultra B = aes_sm3_integrity_256bit B ∧
    aes_sm3_integrity_256bit_mega B = aes_sm3_integrity_256bit B ∧
    aes_sm3_integrity_256bit_super B = aes_sm3_integrity_256bit B ∧
    aes_sm3_integrity_256bit_hyper B = aes_sm3_integrity_256bit B := by
  refine ⟨?_, ?_, ?_, ?_, ?_⟩ <;>
    simp only [aes_sm3_integrity_256bit_extreme, aes_sm3_integrity_256bit_ultra,
      aes_sm3_integrity_256bit_mega, aes_sm3_integrity_256bit_super,
      aes_sm3_integrity_256bit_hyper, digestWith, aes_sm3_integrity_256bit,
      sm3FoldState, xor_fold_unrolled_eq, sm3_compress_hw_eq_inline,
      sm3_compress_hw_eq_quad]

/-- C4: the Batch Engine fills output slot `i` with exactly the Single-Block
256-bit digest of input block `i`, and on `N` identical blocks produces `N`
copies of that block's Single-Block digest. -/
theorem claim_batch_equivalence (L : List (Nat → Nat)) (i : Nat)
    (h : i < L.length) :
    (aes_sm3_integrity_batch L)[i]? = some (aes_sm3_integrity_256bit L[i]) ∧
    aes_sm3_integrity_batch (List.replicate L.length L[i]) =
      List.replicate L.length (aes_sm3_integrity_256bit L[i]) := by
  constructor
  · rw [batch_eq_map, List.getElem?_map, List.getElem?_eq_getElem h]
    rfl
  · rw [batch_eq_map, List.map_replicate]

/-- Witness for C4: the singleton batch over the all-zero block. -/
theorem claim_batch_equivalence_witness :
    0 < ([zeroBlock] : List (Nat → Nat)).length ∧
    ((aes_sm3_integrity_batch [zeroBlock])[0]? =
        some (aes_sm3_integrity_256bit zeroBlock) ∧
      aes_sm3_integrity_batch (List.replicate 1 zeroBlock) =
        List.replicate 1 (aes_sm3_integrity_256bit zeroBlock)) :=
  ⟨by decide, claim_batch_equivalence [zeroBlock] 0 (by decide)⟩

/-- C5: the 128-bit digest equals exactly the first 16 bytes of the 256-bit
digest of the same block. -/
theorem claim_truncation_law (B : Nat → Nat) :
    aes_sm3_integrity_128bit B = (aes_sm3_integrity_256bit B).take 16 :=
  stateToBytesBE_take (sm3FoldState B)

/-- C6: compressing the standard padded "abc" block once from the standard
initialization vector and serializing big-endian yields the GB/T 32905-2016
reference digest 66c7f0f4...8f4ba8e0. -/
theorem claim_sm3_standard_vector :
    stateToBytesBE (sm3_compress_hw SM3_IV abc_block) = abc_expected := by
  decide

/-- C7: byte `i` of the XOR-fold of block `B` is the XOR of the 64 bytes
`B[i*64] .. B[i*64+63]`; consequently the all-zero and all-0xFF blocks fold
to the all-zero 64-byte result, and the block that is zero except for byte
0 = 0x01 folds to byte 0 = 0x01 with all other bytes zero. -/
theorem claim_xor_fold_contract (B : Nat → Nat) (i : Nat) (hi : i < 64) :
    (xor_fold B)[i]? =
      some ((List.range 64).foldl (fun acc j => acc ^^^ B (i * 64 + j)) 0) ∧
    xor_fold zeroBlock = List.replicate 64 0 ∧
    xor_fold onesBlock = List.replicate 64 0 ∧
    xor_fold e0Block = 1 :: List.replicate 63 0 := by
  refine ⟨?_, by decide, by decide, by decide⟩
  unfold xor_fold
  rw [List.getElem?_map, List.getElem?_range hi]
  rfl

/-- Witness for C7: lane 0 of the single-bit block. -/
theorem claim_xor_fold_contract_witness :
    (0 : Nat) < 64 ∧
    ((xor_fold e0Block)[0]? =
        some ((List.range 64).foldl (fun acc j => acc ^^^ e0Block (0 * 64 + j)) 0) ∧
      xor_fold zeroBlock = List.replicate 64 0 ∧
      xor_fold onesBlock = List.replicate 64 0 ∧
      xor_fold e0Block = 1 :: List.replicate 63 0) :=
  ⟨by decide, claim_xor_fold_contract e0Block 0 (by decide)⟩

/-- C8: neither the all-zero block's nor the all-0xFF block's 256-bit digest
is the all-zero 32-byte value. -/
theorem claim_degenerate_not_zero :
    aes_sm3_integrity_256bit zeroBlock ≠ List.replicate 32 0 ∧
    aes_sm3_integrity_256bit onesBlock ≠ List.replicate 32 0 := by
  decide

/-- C10: on byte arrays, `hamming_distance a b len` is exactly the number of
positions among the first `8*len` bits at which `a` and `b` differ; in
particular it is zero iff the first `len` bytes agree, it is symmetric, and
it is at most `8*len`. -/
theorem claim_hamming_distance_correct (a b : Nat → Nat) (len : Nat)
    (ha : ∀ i, i < len → a i < 256) (hb : ∀ i, i < len → b i < 256) :
    hamming_distance a b len =
      (∑ i ∈ Finset.range len, ∑ k ∈ Finset.range 8,
        if (a i).testBit k ≠ (b i).testBit k then 1 else 0) ∧
    (hamming_distance a b len = 0 ↔ ∀ i, i < len → a i = b i) ∧
    hamming_distance a b len = hamming_distance b a len ∧
    hamming_distance a b len ≤ 8 * len := by
  have hxor : ∀ i, i < len → a i ^^^ b i < 2 ^ 8 := fun i hi =>
    Nat.xor_lt_two_pow (ha i hi) (hb i hi)
  have hbit : ∀ i, i < len → bitsum (a i ^^^ b i) =
      ∑ k ∈ Finset.range 8, if (a i).testBit k ≠ (b i).testBit k then 1 else 0 := by
    intro i hi
    rw [bitsum_eq_sum 8 (a i ^^^ b i) (hxor i hi)]
    refine Finset.sum_congr rfl fun k _ => ?_
    rw [Nat.testBit_xor]
    cases hx : (a i).testBit k <;> cases hy : (b i).testBit k <;> simp
  refine ⟨?_, ?_, ?_, ?_⟩
  · rw [hamming_eq_sum]
    exact Finset.sum_congr rfl fun i hi => hbit i (Finset.mem_range.mp hi)
  · rw [hamming_eq_sum, Finset.sum_eq_zero_iff]
    constructor
    · intro h i hi
      have h0 := h i (Finset.mem_range.mpr hi)
      exact Nat.xor_eq_zero.mp ((bitsum_eq_zero _).mp h0)
    · intro h i hi
      rw [Nat.xor_eq_zero.mpr (h i (Finset.mem_range.mp hi))]
      rfl
  · rw [hamming_eq_sum, hamming_eq_sum]
    exact Finset.sum_congr rfl fun i _ => by rw [Nat.xor_comm]
  · rw [hamming_eq_sum]
    have hle : ∀ i ∈ Finset.range len, bitsum (a i ^^^ b i) ≤ 8 := by
      intro i hi
      rw [bitsum_eq_sum 8 (a i ^^^ b i) (hxor i (Finset.mem_range.mp hi))]
      have : (∑ k ∈ Finset.range 8, if (a i ^^^ b i).testBit k then (1 : Nat) else 0) ≤
          ∑ _k ∈ Finset.range 8, 1 :=
        Finset.sum_le_sum fun k _ => by split <;> omega
      simpa using this
    calc (∑ i ∈ Finset.range len, bitsum (a i ^^^ b i)) ≤
        ∑ _i ∈ Finset.range len, 8 := Finset.sum_le_sum hle
      _ = 8 * len := by simp [Finset.sum_const, Finset.card_range, Nat.mul_comm]

/-- Witness for C10: two constant byte arrays of length 2. -/
theorem claim_hamming_distance_correct_witness :
    ((∀ i, i < 2 → (fun _ : Nat => (5 : Nat)) i < 256) ∧
      (∀ i, i < 2 → (fun _ : Nat => (3 : Nat)) i < 256)) ∧
    (hamming_distance (fun _ => 5) (fun _ => 3) 2 =
      (∑ i ∈ Finset.range 2, ∑ k ∈ Finset.range 8,
        if ((fun _ : Nat => (5 : Nat)) i).testBit k ≠
            ((fun _ : Nat => (3 : Nat)) i).testBit k then 1 else 0) ∧
    (hamming_distance (fun _ => 5) (fun _ => 3) 2 = 0 ↔
      ∀ i, i < 2 → (fun _ : Nat => (5 : Nat)) i = (fun _ : Nat => (3 : Nat)) i) ∧
    hamming_distance (fun _ => 5) (fun _ => 3) 2 =
      hamming_distance (fun _ => 3) (fun _ => 5) 2 ∧
    hamming_distance (fun _ => 5) (fun _ => 3) 2 ≤ 8 * 2) :=
  ⟨⟨fun _ _ => (by decide : (5 : Nat) < 256), fun _ _ => (by decide : (3 : Nat) < 256)⟩,
    claim_hamming_distance_correct (fun _ => 5) (fun _ => 3) 2
      (fun _ _ => (by decide : (5 : Nat) < 256)) (fun _ _ => (by decide : (3 : Nat) < 256))⟩
